import Mathlib

/-!
Verification of the background-estimation core of the `gamse`/`edrs`
echelle-reduction repository, against its natural-language specification.

The embedding is shallow: image intensities and pixel coordinates are
modelled as exact rationals (the source works in IEEE floats; all the
claims under study are about algorithm structure, not rounding), numpy
boolean masks as `List Bool`, and fallible numpy operations (least-squares
on an empty point set, `min` of an empty selection, reads of unbound
Python variables) as `Option`/`Except` failures.

Source functions embedded here:
* `fit_background`            (src/edrs/echelle/background.py, lines 342-379)
* the node post-processing of `correct_background`
                              (src/edrs/echelle/background.py, lines 103-132)
* the per-column candidate scan of `correct_background`
                              (src/edrs/echelle/background.py, lines 77-101)
* the log-scale clamp         (src/edrs/echelle/background.py, lines 148-152)
* the method dispatch tail    (src/edrs/echelle/background.py, lines 199-216)
* the return/region-file tail (src/edrs/echelle/background.py, lines 319-339)
* the per-fiber background step of `reduce_doublefiber`
                              (src/gamse/pipelines/foces/reduce_doublefiber.py,
                               lines 1686-1726)
-/

/-- Python `int()` applied to a float: truncation toward zero. -/
def pyint (q : ℚ) : ℤ :=
  if 0 ≤ q then ⌊q⌋ else ⌈q⌉

/-- `numpy.polyval`: evaluate a polynomial given by its coefficient list,
highest power first, by Horner's scheme. -/
def polyval (c : List ℚ) (x : ℚ) : ℚ :=
  c.foldl (fun acc a => acc * x + a) 0

/-- Select the entries of `l` whose position is `true` in the boolean mask
`m` (numpy fancy indexing `l[m]`). -/
def selectMask {α : Type} (l : List α) (m : List Bool) : List α :=
  (l.zip m).filterMap (fun p => if p.2 then some p.1 else none)

/-- `mask.sum()` for a numpy boolean mask: the number of `true` entries. -/
def countMask (m : List Bool) : ℕ :=
  (m.filter (fun b => b)).length

/-- Arithmetic mean of a list of rationals (0 for the empty list, which the
source never reaches on the paths modelled here). -/
def qmean (l : List ℚ) : ℚ :=
  l.sum / l.length

/-- Population variance of a list of rationals: `numpy.std(...)**2`
(`ddof = 0`, exactly numpy's default). -/
def qvar (l : List ℚ) : ℚ :=
  ((l.map (fun r => (r - qmean l) ^ 2)).sum) / l.length

/-- Decidable rendering of the strict test `r < u * sigma` where
`sigma = Real.sqrt v` (`v` the variance, `u ≥ 0` the clip factor): compare
squares on the non-negative side.  `ltUpperSigma_correct` below proves the
equivalence with the real-number comparison. -/
def ltUpperSigma (r u v : ℚ) : Bool :=
  if r < 0 then true else decide (r ^ 2 < u ^ 2 * v)

/-- Decidable rendering of the strict test `-l * sigma < r` where
`sigma = Real.sqrt v`; see `gtLowerSigma_correct`. -/
def gtLowerSigma (r l v : ℚ) : Bool :=
  if 0 < r then true else decide (r ^ 2 < l ^ 2 * v)

/-- Node triple: normalized x, normalized y, intensity z. -/
abbrev FitPt : Type := ℚ × ℚ × ℚ

/-- One round of the sigma-clipping loop body of `fit_background`
(background.py lines 358-365): least-squares fit over the currently
accepted nodes, residuals for all nodes, residual variance over accepted
nodes only, and the new acceptance mask from the strict asymmetric clip
`-lower_clip*sigma < r < upper_clip*sigma`.  The fit itself
(`polyfit2d`/`polyval2d`, from a module that is not part of the sources
under study) is abstracted as the pair `F` (coefficients from the selected
points) and `V` (surface value from coefficients); `numpy.linalg` fails on
an empty point set, hence `none` when no node is accepted. -/
def clipStep {α : Type} (F : List FitPt → α) (V : α → ℚ → ℚ → ℚ)
    (pts : List FitPt) (u l : ℚ) (mask : List Bool) : Option (α × List Bool) :=
  let sel := selectMask pts mask
  if sel.isEmpty then none
  else
    let c := F sel
    let residuals := pts.map (fun p => p.2.2 - V c p.1 p.2.1)
    let v := qvar (selectMask residuals mask)
    some (c, residuals.map (fun r => ltUpperSigma r u v && gtLowerSigma r l v))

/-- The `for niter in range(maxiter)` loop of `fit_background`
(background.py lines 357-373), with the remaining iteration budget as
fuel.  The loop breaks when the new mask has the same `sum()` (count of
accepted nodes) as the current one, returning the current fit together
with the PREVIOUS mask (the `break` runs before `mask = new_mask`); when
the budget is exhausted the last fit is returned with the new mask.
Fuel 0 models `maxiter = 0`, where the Python code falls through to
`polyval2d` with the name `coeff` unbound (a `NameError`): `none`. -/
def fbLoop {α : Type} (F : List FitPt → α) (V : α → ℚ → ℚ → ℚ)
    (pts : List FitPt) (u l : ℚ) : ℕ → List Bool → Option (α × List Bool)
  | 0, _ => none
  | 1, mask =>
    (clipStep F V pts u l mask).map
      (fun cm => if countMask cm.2 = countMask mask then (cm.1, mask) else cm)
  | n + 2, mask =>
    match clipStep F V pts u l mask with
    | none => none
    | some (c, m') =>
      if countMask m' = countMask mask then some (c, mask)
      else fbLoop F V pts u l (n + 1) m'

/-- `fit_background` (background.py lines 342-379): normalize node
coordinates by the frame width/height, start from the all-accepted mask
`np.ones_like(zfit)`, and run the sigma-clipping loop. -/
def fit_background {α : Type} (F : List FitPt → α) (V : α → ℚ → ℚ → ℚ)
    (w h : ℚ) (xs ys zs : List ℚ) (u l : ℚ) (maxiter : ℕ) :
    Option (α × List Bool) :=
  fbLoop F V ((xs.map (· / w)).zip ((ys.map (· / h)).zip zs)) u l maxiter
    (zs.map fun _ => true)

/-- Spec-side variant of the loop, written from the specification's words:
"stop early if the accepted set is unchanged from the previous iteration"
— the stopping test compares the masks themselves, where the source
compares only their counts.  Used to settle claim C3 by comparison with
`fbLoop`. -/
def fbLoopSpec {α : Type} (F : List FitPt → α) (V : α → ℚ → ℚ → ℚ)
    (pts : List FitPt) (u l : ℚ) : ℕ → List Bool → Option (α × List Bool)
  | 0, _ => none
  | 1, mask =>
    (clipStep F V pts u l mask).map
      (fun cm => if cm.2 = mask then (cm.1, mask) else cm)
  | n + 2, mask =>
    match clipStep F V pts u l mask with
    | none => none
    | some (c, m') =>
      if m' = mask then some (c, mask)
      else fbLoopSpec F V pts u l (n + 1) m'

/-- Spec-side `fit_background` with the set-equality stopping rule. -/
def fit_background_spec {α : Type} (F : List FitPt → α) (V : α → ℚ → ℚ → ℚ)
    (w h : ℚ) (xs ys zs : List ℚ) (u l : ℚ) (maxiter : ℕ) :
    Option (α × List Bool) :=
  fbLoopSpec F V ((xs.map (· / w)).zip ((ys.map (· / h)).zip zs)) u l maxiter
    (zs.map fun _ => true)

/-- Modelled from the spec: `polyfit2d` (from `edrs/utils/regression.py`,
which is not among the sources under study) in the degenerate degree
`xorder = yorder = 0`: the least-squares constant fit, i.e. the mean of
the selected intensities.  `meanF_least_squares` below proves it is the
exact least-squares solution. -/
def meanF (sel : List FitPt) : ℚ :=
  qmean (sel.map (fun p => p.2.2))

/-- Modelled from the spec: `polyval2d` for a degree-(0,0) polynomial:
the surface is the constant coefficient everywhere. -/
def meanV (c : ℚ) (_x _y : ℚ) : ℚ := c

/-- The mask sequence generated by iterating the clipping round from a
given initial mask: a declarative description of the states the
`fit_background` loop walks through. -/
def stepMask {α : Type} (F : List FitPt → α) (V : α → ℚ → ℚ → ℚ)
    (pts : List FitPt) (u l : ℚ) (m : List Bool) : Option (List Bool) :=
  (clipStep F V pts u l m).map Prod.snd

/-- Iterated `stepMask`, propagating failure. -/
def maskSeq {α : Type} (F : List FitPt → α) (V : α → ℚ → ℚ → ℚ)
    (pts : List FitPt) (u l : ℚ) (M0 : List Bool) : ℕ → Option (List Bool)
  | 0 => some M0
  | k + 1 => (maskSeq F V pts u l M0 k).bind (stepMask F V pts u l)

/-- The accepted count stabilizes at step `j` of the mask sequence. -/
def stableAt {α : Type} (F : List FitPt → α) (V : α → ℚ → ℚ → ℚ)
    (pts : List FitPt) (u l : ℚ) (M0 : List Bool) (j : ℕ) : Prop :=
  (maskSeq F V pts u l M0 (j + 1)).isSome = true ∧
    (maskSeq F V pts u l M0 (j + 1)).map countMask =
      (maskSeq F V pts u l M0 j).map countMask

/-- Upward extension walk of `correct_background` (background.py lines
110-115): starting from index `ii` and current row `y`, repeat
`ii += 1; y = int(np.polyval(coeff, ii))`, collecting the appended rows,
while `y < h - 1`.  The `while` loop has no other bound; the fuel
parameter only truncates the model, and `upWalk_terminates_iff` below
relates fuel-completion to the genuine termination condition. -/
def upWalkF (c : List ℚ) (h : ℤ) : ℕ → ℤ → ℤ → Option (List ℤ)
  | 0, _, y => if h - 1 ≤ y then some [] else none
  | n + 1, ii, y =>
    if h - 1 ≤ y then some []
    else
      let y' := pyint (polyval c ((ii + 1 : ℤ) : ℚ))
      (upWalkF c h n (ii + 1) y').map (fun r => y' :: r)

/-- Termination condition of the upward walk: either the starting row is
already at or beyond `h - 1`, or some later predicted row is. -/
def upWalkTerminates (c : List ℚ) (h : ℤ) (ii : ℤ) (y : ℤ) : Prop :=
  h - 1 ≤ y ∨ ∃ n : ℕ, h - 1 ≤ pyint (polyval c ((ii + 1 + n : ℤ) : ℚ))

/-- Downward extension walk (background.py lines 117-122): repeat
`ii -= 1; y = int(np.polyval(coeff, ii))`, collecting the inserted rows in
generation order, while `y > 0`.  The rows are inserted at position 0 one
by one, so the final prefix is the reverse of the collected list. -/
def downWalkF (c : List ℚ) : ℕ → ℤ → ℤ → Option (List ℤ)
  | 0, _, y => if y ≤ 0 then some [] else none
  | n + 1, ii, y =>
    if y ≤ 0 then some []
    else
      let y' := pyint (polyval c ((ii - 1 : ℤ) : ℚ))
      (downWalkF c n (ii - 1) y').map (fun r => y' :: r)

/-- The `extend` block of `correct_background` (background.py lines
107-122) given the degree-3 coefficient vector `c` that `np.polyfit`
returned for the column: walk upward from the last node and downward from
the first, and assemble the extended row sequence.  An empty column
crashes the source (`inter_aper[-1]` on an empty array), hence `none`. -/
def extendColOpt (c : List ℚ) (h : ℤ) (fuel : ℕ) (ext : Bool) (l : List ℤ) :
    Option (List ℤ) :=
  if ext then
    match l with
    | [] => none
    | a :: t => do
      let ups ← upWalkF c h fuel ((l.length - 1 : ℕ) : ℤ)
        ((a :: t).getLast (by simp))
      let downs ← downWalkF c fuel 0 a
      pure (downs.reverse ++ l ++ ups)
  else some l

/-- Range filter of `correct_background` (background.py lines 124-127):
keep rows strictly inside `(0, h-1)`. -/
def rangeFilter (h : ℤ) (l : List ℤ) : List ℤ :=
  l.filter (fun y => decide (0 < y) && decide (y < h - 1))

/-- Helper for the backward-point removal: keep an element when it is
strictly greater than its predecessor in the ORIGINAL sequence (the numpy
mask is `np.diff(np.insert(l, 0, 0)) > 0`, so each element is compared to
the original neighbour, kept or not). -/
def rbAux (p : ℤ) : List ℤ → List ℤ
  | [] => []
  | a :: t => if p < a then a :: rbAux a t else rbAux a t

/-- Backward-point removal of `correct_background` (background.py lines
129-132), with the inserted sentinel 0 as first predecessor. -/
def removeBackward (l : List ℤ) : List ℤ :=
  rbAux 0 l

/-- Per-column node post-processing of `correct_background`: extension
(when enabled), out-of-range filtering, and backward-point removal, in
source order (background.py lines 107-132). -/
def postColumn (c : List ℚ) (h : ℤ) (fuel : ℕ) (ext : Bool) (l : List ℤ) :
    Option (List ℤ) :=
  (extendColOpt c h fuel ext l).map (fun e => removeBackward (rangeFilter h e))

/-- First index of the minimum of a list (`numpy.argmin`: ties resolved to
the first occurrence). -/
def argminIdx : List ℚ → ℕ
  | [] => 0
  | a :: t =>
    match t with
    | [] => 0
    | b :: t' => if a ≤ (t'.foldl min b) then 0 else argminIdx (b :: t') + 1

/-- Candidate recording step of the per-column scan (background.py lines
93-100): given the previous order center `p` and the current one `c`,
compute the midpoint row, clamp both centers into the frame, and — unless
the midpoint is within `0.6 * scan_step` of the last accepted node or the
clamped window is empty — append the row of minimum intensity of the
column section `sec` over the window `[i1, i2)`.  `0.6` is modelled as the
exact rational `3/5`. -/
def tryAppend (hgt : ℤ) (step : ℚ) (sec : List ℚ) (p c : ℚ) (acc : List ℤ) :
    List ℤ :=
  let mid := pyint ((p + c) / 2)
  let i1 := min (hgt - 1) (max 0 (pyint p))
  let i2 := min (hgt - 1) (max 0 (pyint c))
  if acc = [] ∨ step * (3 / 5) < |(mid : ℚ) - ((acc.getLastD 0 : ℤ) : ℚ)| then
    if 0 < i2 - i1 then
      acc ++ [i1 + ((argminIdx ((sec.drop i1.toNat).take (i2 - i1).toNat) : ℕ) : ℤ)]
    else acc
  else acc

/-- Per-column scan over the apertures (background.py lines 80-101).  For
each aperture index in scan order, `centers` lists the order centers of
the channels containing it (in channel order; empty when no channel has
the aperture).  A candidate is recorded between the FIRST center of the
current aperture (`count_channel == 1`) and the stored previous center,
which is the LAST center of the previous non-empty aperture
(`prev_newy = this_newy` runs for every channel). -/
def columnScan (hgt : ℤ) (step : ℚ) (sec : List ℚ) :
    List (List ℚ) → Option ℚ → List ℤ → List ℤ
  | [], _, acc => acc
  | cs :: rest, prev, acc =>
    match cs with
    | [] => columnScan hgt step sec rest prev acc
    | c1 :: cr =>
      let acc' := match prev with
        | none => acc
        | some p => tryAppend hgt step sec p c1 acc
      columnScan hgt step sec rest (some ((c1 :: cr).getLast (by simp))) acc'

/-- Minimum of the positive entries of `z` (0 when there is none; that
case is unreachable in `logClampZ`). -/
def minPos (z : List ℚ) : ℚ :=
  match z.filter (fun v => decide (0 < v)) with
  | [] => 0
  | a :: t => t.foldl min a

/-- The `scale == 'log'` clamp of `correct_background` (background.py
lines 149-151): replace every non-positive node intensity by the minimum
POSITIVE intensity.  When no intensity is positive the source takes
`min()` of an empty selection, a numpy `ValueError`: `none`. -/
def logClampZ (z : List ℚ) : Option (List ℚ) :=
  if (z.filter (fun v => decide (0 < v))).isEmpty then none
  else some (z.map (fun v => if 0 < v then v else minPos z))

/-- Inverse log-transform applied to the fitted surface (background.py
line 210: `np.power(10, background_data)`), in exact real arithmetic. -/
noncomputable def pow10 (q : ℚ) : ℝ :=
  (10 : ℝ) ^ (q : ℝ)

/-- The background surface handed back to the caller in log mode: the
fitted (log-space) surface mapped through `10 ^ x` at every pixel. -/
noncomputable def invLogSurface {α : Type} (V : α → ℚ → ℚ → ℚ) (c : α)
    (x y : ℚ) : ℝ :=
  pow10 (V c x y)

/-- Python runtime exceptions reached by the modelled control flow. -/
inductive PyErr : Type
  | nameError
  | attributeError
  | valueError
  deriving DecidableEq

/-- Method dispatch and fit postlude of `correct_background`
(background.py lines 199-216).  The fit results are parameters (they are
produced by `fit_background` / `interpolate_background`); the local
Python variables `background_data`/`fitmask`, which the unknown-method
branch leaves unbound, are modelled by an `Option` that the following
statements read — reading `none` is a `NameError`.  The returned flag
records whether the log inverse transform was applied.  The first
component lists the messages printed. -/
def correctBackgroundTail {α : Type} (method scale : String)
    (polyRes interpRes : α) : List String × Except PyErr (α × Bool) :=
  let fitted : Option α :=
    if method = "poly" then some polyRes
    else if method = "interp" then some interpRes
    else none
  let msgs : List String :=
    if method = "poly" ∨ method = "interp" then []
    else ["Unknown method: " ++ method]
  match fitted with
  | some r => (msgs, Except.ok (r, scale = "log"))
  | none => (msgs, Except.error PyErr.nameError)

/-- A stored background-light model as far as the per-fiber step of
`reduce_doublefiber` consumes it: its 2-D data (one rational standing for
the array) is all that the final accumulation line reads. -/
structure BkgLight : Type where
  data : ℚ

/-- Per-fiber background selection step of `reduce_doublefiber`
(reduce_doublefiber.py lines 1686-1726).  `sameSession` models the result
of `find_best_background` and `dbArchive` that of
`select_background_from_database` (both defined outside the sources under
study; modelled from the spec as returning `none` when no candidate
qualifies).  The final statement
`background = background + selected_bkg.data*scale` is OUTSIDE the
`if find_background:` block, so with both lookups empty it dereferences
`None` — an `AttributeError`.  The first component lists the messages
printed. -/
def fiberBackgroundStep (sameSession dbArchive : Option BkgLight)
    (scaleOf : BkgLight → ℚ) (bg : ℚ) : List String × Except PyErr ℚ :=
  let selected := match sameSession with
    | some b => some b
    | none => dbArchive
  match selected with
  | none =>
    (["Error: No background found in the database"],
      Except.error PyErr.attributeError)
  | some b => ([], Except.ok (bg + b.data * scaleOf b))

/-- Statements of the tail of `correct_background` after the plotting
block (background.py lines 319-339), in source order. -/
inductive TailStmt : Type
  | showPlot
  | saveFig
  | closeFig
  | ret
  | writeReg

/-- Effects of executing the tail: whether a `return` was reached and
whether the DS9 region file was written. -/
structure TailEff : Type where
  returned : Bool
  regWritten : Bool
  deriving DecidableEq

/-- Sequential execution of the tail statements: `return` stops execution
(everything after it is unreachable); `writeReg` writes the region file
when `reg_file is not None`. -/
def execTail (regFile : Option String) : List TailStmt → TailEff
  | [] => ⟨false, false⟩
  | TailStmt.ret :: _ => ⟨true, false⟩
  | TailStmt.writeReg :: rest =>
    let e := execTail regFile rest
    ⟨e.returned, regFile.isSome || e.regWritten⟩
  | _ :: rest => execTail regFile rest

/-- The statement order of background.py lines 319-339: `plt.show()`,
conditional `fig.savefig`, `plt.close`, `return background_data`, and only
then the region-file block. -/
def correctBackgroundTailProg : List TailStmt :=
  [TailStmt.showPlot, TailStmt.saveFig, TailStmt.closeFig, TailStmt.ret,
    TailStmt.writeReg]

/-- Truncation of a non-positive rational is non-positive. -/
lemma pyint_nonpos {q : ℚ} (hq : q ≤ 0) : pyint q ≤ 0 := by
  unfold pyint
  split
  · exact Int.floor_nonpos hq
  · exact Int.ceil_le.mpr (by exact_mod_cast hq)

/-- Truncation agrees with the floor on non-negative rationals. -/
lemma pyint_of_nonneg {q : ℚ} (hq : 0 ≤ q) : pyint q = ⌊q⌋ := by
  unfold pyint
  exact if_pos hq

/-- The squared-comparison test agrees with the real comparison
`r < u * sqrt v` for a non-negative clip factor and variance: the
embedding of numpy's `residuals < upper_clip*sigma` is faithful. -/
lemma ltUpperSigma_correct (r u v : ℚ) (hu : 0 ≤ u) (hv : 0 ≤ v) :
    ltUpperSigma r u v = true ↔ (r : ℝ) < (u : ℝ) * Real.sqrt (v : ℝ) := by
  unfold ltUpperSigma
  have hs : 0 ≤ (u : ℝ) * Real.sqrt (v : ℝ) :=
    mul_nonneg (by exact_mod_cast hu) (Real.sqrt_nonneg _)
  have hsq : ((u : ℝ) * Real.sqrt (v : ℝ)) ^ 2 = (u : ℝ) ^ 2 * (v : ℝ) := by
    rw [mul_pow, Real.sq_sqrt (by exact_mod_cast hv)]
  split
  · rename_i hr
    simp only [true_iff]
    exact lt_of_lt_of_le (by exact_mod_cast hr) hs
  · rename_i hr
    push_neg at hr
    rw [decide_eq_true_eq]
    constructor
    · intro hlt
      have h2 : (r : ℝ) ^ 2 < ((u : ℝ) * Real.sqrt (v : ℝ)) ^ 2 := by
        rw [hsq]; exact_mod_cast hlt
      exact lt_of_pow_lt_pow_left₀ 2 hs h2
    · intro hlt
      have h2 : (r : ℝ) ^ 2 < ((u : ℝ) * Real.sqrt (v : ℝ)) ^ 2 :=
        pow_lt_pow_left₀ hlt (by exact_mod_cast hr) (by norm_num)
      rw [hsq] at h2
      exact_mod_cast h2

/-- The squared-comparison test agrees with the real comparison
`-l * sqrt v < r`: the embedding of numpy's
`residuals > -lower_clip*sigma` is faithful. -/
lemma gtLowerSigma_correct (r l v : ℚ) (hl : 0 ≤ l) (hv : 0 ≤ v) :
    gtLowerSigma r l v = true ↔ -((l : ℝ) * Real.sqrt (v : ℝ)) < (r : ℝ) := by
  unfold gtLowerSigma
  have hs : 0 ≤ (l : ℝ) * Real.sqrt (v : ℝ) :=
    mul_nonneg (by exact_mod_cast hl) (Real.sqrt_nonneg _)
  have hsq : ((l : ℝ) * Real.sqrt (v : ℝ)) ^ 2 = (l : ℝ) ^ 2 * (v : ℝ) := by
    rw [mul_pow, Real.sq_sqrt (by exact_mod_cast hv)]
  split
  · rename_i hr
    simp only [true_iff]
    calc -((l : ℝ) * Real.sqrt (v : ℝ)) ≤ 0 := neg_nonpos.mpr hs
    _ < (r : ℝ) := by exact_mod_cast hr
  · rename_i hr
    push_neg at hr
    rw [decide_eq_true_eq]
    constructor
    · intro hlt
      have hrr : 0 ≤ -(r : ℝ) := by
        simp only [neg_nonneg]
        exact_mod_cast hr
      have h2 : (-(r : ℝ)) ^ 2 < ((l : ℝ) * Real.sqrt (v : ℝ)) ^ 2 := by
        rw [neg_sq, hsq]
        exact_mod_cast hlt
      have := lt_of_pow_lt_pow_left₀ 2 hs h2
      linarith
    · intro hlt
      have hrr : 0 ≤ -(r : ℝ) := by
        simp only [neg_nonneg]
        exact_mod_cast hr
      have h1 : -(r : ℝ) < (l : ℝ) * Real.sqrt (v : ℝ) := by linarith
      have h2 : (-(r : ℝ)) ^ 2 < ((l : ℝ) * Real.sqrt (v : ℝ)) ^ 2 :=
        pow_lt_pow_left₀ h1 hrr (by norm_num)
      rw [neg_sq, hsq] at h2
      exact_mod_cast h2

/-- Sum of the pointwise differences to a constant. -/
lemma sum_map_sub_const (zs : List ℚ) (m : ℚ) :
    (zs.map (fun z => z - m)).sum = zs.sum - zs.length * m := by
  induction zs with
  | nil => simp
  | cons a t ih =>
    simp only [List.map_cons, List.sum_cons, ih, List.length_cons]
    push_cast
    ring

/-- Shift-of-center identity for sums of squared deviations. -/
lemma sum_sq_shift (zs : List ℚ) (m b : ℚ) :
    (zs.map (fun z => (z - b) ^ 2)).sum =
      (zs.map (fun z => (z - m) ^ 2)).sum +
        2 * (m - b) * ((zs.map (fun z => z - m)).sum) +
        zs.length * (m - b) ^ 2 := by
  induction zs with
  | nil => simp
  | cons a t ih =>
    simp only [List.map_cons, List.sum_cons, ih, List.length_cons]
    push_cast
    ring

/-- The mean is the exact least-squares constant fit: for every candidate
constant `b`, the summed squared residuals around the mean are no larger.
This justifies `meanF` as a faithful model of `polyfit2d` at degree
`(0,0)`. -/
lemma meanF_least_squares (sel : List FitPt) (hne : sel ≠ []) (b : ℚ) :
    ((sel.map (fun p => p.2.2)).map (fun z => (z - meanF sel) ^ 2)).sum ≤
      ((sel.map (fun p => p.2.2)).map (fun z => (z - b) ^ 2)).sum := by
  set zs := sel.map (fun p => p.2.2) with hzs
  have hlen : zs.length ≠ 0 := by
    simp [hzs, List.length_map]
    exact hne
  have hlenq : ((zs.length : ℚ)) ≠ 0 := by exact_mod_cast hlen
  have hmean : (zs.map (fun z => z - meanF sel)).sum = 0 := by
    rw [sum_map_sub_const]
    have : meanF sel = zs.sum / zs.length := by
      simp [meanF, qmean, hzs]
    rw [this]
    field_simp
  have hid := sum_sq_shift zs (meanF sel) b
  rw [hid, hmean]
  have hnn : 0 ≤ (zs.length : ℚ) * (meanF sel - b) ^ 2 :=
    mul_nonneg (by positivity) (by positivity)
  linarith

/-- A mask with zero accepted count selects nothing. -/
lemma selectMask_eq_nil {α : Type} (l : List α) (m : List Bool)
    (hm : countMask m = 0) : selectMask l m = [] := by
  have hall : ∀ b ∈ m, b = false := by
    intro b hb
    by_contra hbt
    have hbt' : b = true := by
      cases b
      · exact absurd rfl hbt
      · rfl
    have : b ∈ m.filter (fun b => b) := by
      rw [List.mem_filter]
      exact ⟨hb, by rw [hbt']⟩
    have hlen : m.filter (fun b => b) ≠ [] := List.ne_nil_of_mem this
    have : (m.filter (fun b => b)).length ≠ 0 := by
      intro h0
      exact hlen (List.eq_nil_of_length_eq_zero h0)
    exact this hm
  clear hm
  induction l generalizing m with
  | nil => simp [selectMask]
  | cons a t ih =>
    cases m with
    | nil => simp [selectMask]
    | cons b mt =>
      have hb : b = false := hall b (by simp)
      subst hb
      simp only [selectMask, List.zip_cons_cons, List.filterMap_cons]
      simp only [Bool.false_eq_true, if_false]
      exact ih mt (fun b hb => hall b (List.mem_cons_of_mem _ hb))

/-- Feeding a zero-count mask into the clipping round fails: the
least-squares fit has no points. -/
lemma clipStep_none_of_count_zero {α : Type} (F : List FitPt → α)
    (V : α → ℚ → ℚ → ℚ) (pts : List FitPt) (u l : ℚ) (m : List Bool)
    (hm : countMask m = 0) : clipStep F V pts u l m = none := by
  unfold clipStep
  rw [selectMask_eq_nil pts m hm]
  rfl

/-- A defined later state of the mask sequence needs a defined earlier
state. -/
lemma maskSeq_isSome_down {α : Type} (F : List FitPt → α) (V : α → ℚ → ℚ → ℚ)
    (pts : List FitPt) (u l : ℚ) (M0 : List Bool) (j : ℕ)
    (h : (maskSeq F V pts u l M0 (j + 1)).isSome = true) :
    (maskSeq F V pts u l M0 j).isSome = true := by
  rw [maskSeq] at h
  cases hj : maskSeq F V pts u l M0 j with
  | none => rw [hj] at h; simp at h
  | some m => rfl

/-- Shifting the start of the mask sequence across one step. -/
lemma maskSeq_shift {α : Type} (F : List FitPt → α) (V : α → ℚ → ℚ → ℚ)
    (pts : List FitPt) (u l : ℚ) (M0 m1 : List Bool)
    (h : stepMask F V pts u l M0 = some m1) (j : ℕ) :
    maskSeq F V pts u l M0 (j + 1) = maskSeq F V pts u l m1 j := by
  induction j with
  | zero => simp [maskSeq, h]
  | succ j ih => rw [maskSeq, ih, maskSeq]

/-- Count stability is invariant under shifting the start of the mask
sequence across one step. -/
lemma stableAt_shift {α : Type} (F : List FitPt → α) (V : α → ℚ → ℚ → ℚ)
    (pts : List FitPt) (u l : ℚ) (M0 m1 : List Bool)
    (h : stepMask F V pts u l M0 = some m1) (j : ℕ) :
    stableAt F V pts u l m1 j ↔ stableAt F V pts u l M0 (j + 1) := by
  unfold stableAt
  rw [maskSeq_shift F V pts u l M0 m1 h (j + 1), maskSeq_shift F V pts u l M0 m1 h j]

/-- The first index of the minimum is a valid index. -/
lemma argminIdx_lt_length (l : List ℚ) (h : l ≠ []) : argminIdx l < l.length := by
  induction l with
  | nil => exact absurd rfl h
  | cons a t ih =>
    cases t with
    | nil => simp [argminIdx]
    | cons b t' =>
      rw [argminIdx]
      split
      · simp
      · have := ih (by simp)
        simpa [List.length_cons] using Nat.succ_lt_succ this

/-- Folding `min` returns a lower bound of the initial value. -/
lemma foldl_min_le_init (t : List ℚ) (a : ℚ) : t.foldl min a ≤ a := by
  induction t generalizing a with
  | nil => simp
  | cons b t' ih =>
    rw [List.foldl_cons]
    exact le_trans (ih (min a b)) (min_le_left a b)

/-- Folding `min` returns a lower bound of every list element. -/
lemma foldl_min_le_mem (t : List ℚ) (a x : ℚ) (hx : x ∈ t) : t.foldl min a ≤ x := by
  induction t generalizing a with
  | nil => simp at hx
  | cons b t' ih =>
    rw [List.foldl_cons]
    rcases List.mem_cons.mp hx with h | h
    · subst h
      exact le_trans (foldl_min_le_init t' (min a x)) (min_le_right a x)
    · exact ih (min a b) h

/-- Folding `min` from an initial value below every element returns the
initial value. -/
lemma foldl_min_eq_init (t : List ℚ) (a : ℚ) (h : ∀ x ∈ t, a ≤ x) :
    t.foldl min a = a := by
  induction t generalizing a with
  | nil => simp
  | cons b t' ih =>
    rw [List.foldl_cons, min_eq_left (h b (by simp))]
    exact ih a (fun x hx => h x (List.mem_cons_of_mem _ hx))

/-- Folding `min` commutes with taking a `min` in the initial value. -/
lemma foldl_min_init_min (t : List ℚ) (a b : ℚ) :
    t.foldl min (min a b) = min a (t.foldl min b) := by
  induction t generalizing b with
  | nil => simp
  | cons c t' ih =>
    rw [List.foldl_cons, List.foldl_cons, min_assoc, ih]

/-- The element at the first-minimum index is the minimum of the list. -/
lemma getD_argminIdx (a : ℚ) (t : List ℚ) :
    (a :: t).getD (argminIdx (a :: t)) 0 = t.foldl min a := by
  induction t generalizing a with
  | nil => simp [argminIdx]
  | cons b t' ih =>
    rw [argminIdx]
    split
    · rename_i hmin
      simp only [List.getD_cons_zero, List.foldl_cons]
      have hab : min a b = a := min_eq_left
        (le_trans hmin (foldl_min_le_init t' b))
      rw [hab]
      refine (foldl_min_eq_init t' a (fun x hx => ?_)).symm
      exact le_trans hmin (foldl_min_le_mem t' b x hx)
    · rename_i hmin
      push_neg at hmin
      simp only [List.getD_cons_succ]
      rw [ih b, List.foldl_cons, foldl_min_init_min]
      exact (min_eq_right hmin.le).symm

/-- The element at the first-minimum index is a lower bound of every
element of the list. -/
lemma argminIdx_le (l : List ℚ) (j : ℕ) (hj : j < l.length) :
    l.getD (argminIdx l) 0 ≤ l.getD j 0 := by
  cases l with
  | nil => simp at hj
  | cons a t =>
    rw [getD_argminIdx]
    cases j with
    | zero => simpa using foldl_min_le_init t a
    | succ j' =>
      simp only [List.getD_cons_succ]
      have hj' : j' < t.length := by simpa using hj
      have hmem : t.getD j' 0 ∈ t := by
        rw [List.getD_eq_getElem t 0 hj']
        exact List.getElem_mem hj'
      exact foldl_min_le_mem t a _ hmem

/-- Backward-point removal is the identity on a sequence that strictly
increases from its running predecessor. -/
lemma rbAux_eq_self (l : List ℤ) (p : ℤ) (h : List.Chain (fun a b => a < b) p l) :
    rbAux p l = l := by
  induction l generalizing p with
  | nil => rfl
  | cons a t ih =>
    rw [List.chain_cons] at h
    rw [rbAux, if_pos h.1, ih a h.2]

/-- Every element surviving the range filter is strictly positive. -/
lemma rangeFilter_pos (h : ℤ) (l : List ℤ) (x : ℤ) (hx : x ∈ rangeFilter h l) :
    0 < x := by
  unfold rangeFilter at hx
  have := List.of_mem_filter hx
  simp only [Bool.and_eq_true, decide_eq_true_eq] at this
  exact this.1

/-- Folding `min` from a positive initial value over positive elements
stays positive. -/
lemma foldl_min_pos (t : List ℚ) (a : ℚ) (ha : 0 < a)
    (h : ∀ x ∈ t, 0 < x) : 0 < t.foldl min a := by
  induction t generalizing a with
  | nil => simpa using ha
  | cons b t' ih =>
    rw [List.foldl_cons]
    exact ih (min a b) (lt_min ha (h b (by simp)))
      (fun x hx => h x (List.mem_cons_of_mem _ hx))

/-- The minimum positive intensity is positive as soon as one intensity
is positive. -/
lemma minPos_pos (z : List ℚ) (hpos : ∃ v ∈ z, 0 < v) : 0 < minPos z := by
  obtain ⟨v, hv, hv0⟩ := hpos
  have hmem : v ∈ z.filter (fun v => decide (0 < v)) :=
    List.mem_filter.mpr ⟨hv, by simpa using hv0⟩
  cases hf : z.filter (fun v => decide (0 < v)) with
  | nil => rw [hf] at hmem; simp at hmem
  | cons a t =>
    have hall : ∀ x ∈ a :: t, 0 < x := by
      intro x hx
      have hx' : x ∈ z.filter (fun v => decide (0 < v)) := by rw [hf]; exact hx
      simpa using List.of_mem_filter hx'
    have hmp : minPos z = t.foldl min a := by
      unfold minPos
      rw [hf]
    rw [hmp]
    exact foldl_min_pos t a (hall a (by simp))
      (fun x hx => hall x (List.mem_cons_of_mem _ hx))

/-- Claim C9: a converged final state of `fit_background`'s clipping loop
is a fixed point: starting the loop again from the returned accept mask
performs one fit-and-clip round, finds the accepted count unchanged, and
returns the very same surface coefficients and mask, whatever iteration
budget is allowed. -/
theorem claim_C9_converged_fixed_point {α : Type} (F : List FitPt → α)
    (V : α → ℚ → ℚ → ℚ) (pts : List FitPt) (u l : ℚ) (M m' : List Bool)
    (c : α) (fuel : ℕ)
    (hstep : clipStep F V pts u l M = some (c, m'))
    (hcount : countMask m' = countMask M) :
    fbLoop F V pts u l (fuel + 1) M = some (c, M) := by
  cases fuel with
  | zero => simp [fbLoop, hstep, hcount]
  | succ n =>
    show fbLoop F V pts u l (n + 2) M = some (c, M)
    rw [fbLoop, hstep]
    simp [hcount]

/-- Witness for claim C9 at a concrete converging node set: three nodes of
intensities 0, 10, 20 are all accepted at 3-sigma clipping, so the state
(mean 10, all-true mask) is converged, and re-running the loop from it
reproduces the same fit and mask. -/
theorem claim_C9_witness :
    clipStep meanF meanV [(0,0,0),(0,0,10),(0,0,20)] 3 3 [true,true,true]
        = some (10, [true,true,true]) ∧
      fbLoop meanF meanV [(0,0,0),(0,0,10),(0,0,20)] 3 3 5 [true,true,true]
        = some (10, [true,true,true]) := by
  have h1 : clipStep meanF meanV [(0,0,0),(0,0,10),(0,0,20)] 3 3 [true,true,true]
      = some (10, [true,true,true]) := by
    norm_num [clipStep, selectMask, countMask, qvar, qmean, meanF, meanV,
      ltUpperSigma, gtLowerSigma, List.filterMap_cons]
  exact ⟨h1, claim_C9_converged_fixed_point meanF meanV _ 3 3 _ _ 10 4 h1 rfl⟩

/-- Claim C2 (amended): when a clipping round leaves the accepted node set
empty (and the count changed), the `fit_background` loop does NOT halt
with the previous state: the empty mask becomes the working set and the
next round attempts a least-squares fit over zero points, which fails —
the previous surface and mask are not retained. -/
theorem claim_C2_empty_set_fits_zero_points {α : Type} (F : List FitPt → α)
    (V : α → ℚ → ℚ → ℚ) (pts : List FitPt) (u l : ℚ) (M m' : List Bool)
    (c : α) (fuel : ℕ)
    (hstep : clipStep F V pts u l M = some (c, m'))
    (hzero : countMask m' = 0)
    (hM : countMask M ≠ 0) :
    fbLoop F V pts u l (fuel + 2) M = none := by
  rw [fbLoop, hstep]
  have hne : ¬ (countMask m' = countMask M) := by
    rw [hzero]
    exact fun h => hM h.symm
  dsimp only
  rw [if_neg hne]
  have hcs : clipStep F V pts u l m' = none :=
    clipStep_none_of_count_zero F V pts u l m' hzero
  cases fuel with
  | zero => simp [fbLoop, hcs]
  | succ n =>
    show fbLoop F V pts u l (n + 2) m' = none
    rw [fbLoop, hcs]

/-- Counterexample to claim C2 as stated: on the two equal nodes of
intensity 1 the first round fits them exactly, the residual deviation is
zero, the STRICT clip `0 < 0` rejects every node, and — instead of
retaining the previous surface and halting — `fit_background` carries the
empty mask into the next round and dies fitting zero points (`none`,
modelling the `numpy.linalg` failure), so no surface at all is returned. -/
theorem claim_C2_counterexample :
    clipStep meanF meanV [(0,0,1),(1,0,1)] 3 3 [true,true]
        = some (1, [false,false]) ∧
      fit_background meanF meanV 1 1 [0,1] [0,0] [1,1] 3 3 5 = none := by
  constructor
  · norm_num [clipStep, selectMask, countMask, qvar, qmean, meanF, meanV,
      ltUpperSigma, gtLowerSigma, List.filterMap_cons]
  · norm_num [fit_background, fbLoop, clipStep, selectMask, countMask, qvar,
      qmean, meanF, meanV, ltUpperSigma, gtLowerSigma, List.filterMap_cons]

/-- Witness for the amended claim C2 at the same concrete node set. -/
theorem claim_C2_witness :
    clipStep meanF meanV [(0,0,1),(1,0,1)] 3 3 [true,true]
        = some (1, [false,false]) ∧
      countMask [false,false] = 0 ∧ countMask [true,true] ≠ 0 ∧
      fbLoop meanF meanV [(0,0,1),(1,0,1)] 3 3 5 [true,true] = none := by
  have h1 : clipStep meanF meanV [(0,0,1),(1,0,1)] 3 3 [true,true]
      = some (1, [false,false]) := by
    norm_num [clipStep, selectMask, countMask, qvar, qmean, meanF, meanV,
      ltUpperSigma, gtLowerSigma, List.filterMap_cons]
  refine ⟨h1, by norm_num [countMask], by norm_num [countMask], ?_⟩
  exact claim_C2_empty_set_fits_zero_points meanF meanV _ 3 3 _ _ 1 3 h1
    (by norm_num [countMask]) (by norm_num [countMask])

/-- Claim C6: when neither the same-session lookup nor the database lookup
yields a background for the fiber, the per-fiber step of
`reduce_doublefiber` prints the error message and then fails hard — the
unconditional `background + selected_bkg.data*scale` line dereferences
`None` (`AttributeError`) — so the frame is never silently passed through
with subtraction skipped. -/
theorem claim_C6_no_background_hard_failure (scaleOf : BkgLight → ℚ) (bg : ℚ) :
    fiberBackgroundStep none none scaleOf bg
      = (["Error: No background found in the database"],
          Except.error PyErr.attributeError) := rfl

/-- Claim C10: `correct_background` returns before the DS9 region-file
block, so for every value of `reg_file` — including `some` values — the
region file is never written: the tail execution reaches `return` with the
write flag still false. -/
theorem claim_C10_region_block_unreachable (regFile : Option String) :
    execTail regFile correctBackgroundTailProg
      = { returned := true, regWritten := false } := rfl

/-- Claim C5 (amended): an unrecognized fit method is reported with the
printed message `Unknown method: ...` and no fit is produced; but the
function does not then return cleanly — it falls through to statements
reading the never-assigned fit variables and raises an uncaught
`NameError`, which propagates out of `correct_background` (terminating the
run unless some caller catches it). -/
theorem claim_C5_unknown_method_raises {α : Type} (method scale : String)
    (polyRes interpRes : α)
    (h1 : method ≠ "poly") (h2 : method ≠ "interp") :
    correctBackgroundTail method scale polyRes interpRes
      = (["Unknown method: " ++ method], Except.error PyErr.nameError) := by
  simp [correctBackgroundTail, h1, h2]

/-- Counterexample to claim C5 as stated: at the concrete unknown method
`spline`, `correct_background`'s dispatch tail ends in the error outcome
(the uncaught `NameError`), not in a clean abort of only the current fit. -/
theorem claim_C5_counterexample :
    correctBackgroundTail "spline" "linear" (0 : ℚ) 1
      = (["Unknown method: spline"], Except.error PyErr.nameError) := rfl

/-- Witness for the amended claim C5 at the concrete method `spline`. -/
theorem claim_C5_witness :
    correctBackgroundTail "spline" "log" (0 : ℚ) 1
      = (["Unknown method: spline"], Except.error PyErr.nameError) :=
  claim_C5_unknown_method_raises "spline" "log" 0 1 (by decide) (by decide)

/-- Claim C7 (amended): in log mode, provided at least one sampled node
intensity is positive, every non-positive intensity is replaced by the
minimum positive intensity (all transformed intensities are then
positive), and the surface handed back after the inverse transform
`10 ^ x` is non-negative — indeed positive — at every pixel.  When no
intensity is positive the clamp itself fails (see the counterexample). -/
theorem claim_C7_log_clamp_positive_surface (z : List ℚ)
    (hpos : ∃ v ∈ z, 0 < v) :
    ∃ z', logClampZ z = some z' ∧
      z' = z.map (fun v => if 0 < v then v else minPos z) ∧
      (∀ v' ∈ z', 0 < v') ∧
      ∀ (α : Type) (V : α → ℚ → ℚ → ℚ) (c : α) (x y : ℚ),
        0 ≤ invLogSurface V c x y := by
  have hne : ¬ (z.filter (fun v => decide (0 < v))).isEmpty = true := by
    obtain ⟨v, hv, hv0⟩ := hpos
    have hmem : v ∈ z.filter (fun v => decide (0 < v)) :=
      List.mem_filter.mpr ⟨hv, by simpa using hv0⟩
    intro hemp
    rw [List.isEmpty_iff] at hemp
    rw [hemp] at hmem
    simp at hmem
  refine ⟨z.map (fun v => if 0 < v then v else minPos z), ?_, rfl, ?_, ?_⟩
  · unfold logClampZ
    rw [if_neg hne]
  · intro v' hv'
    obtain ⟨v, hv, rfl⟩ := List.mem_map.mp hv'
    by_cases h0 : 0 < v
    · rw [if_pos h0]; exact h0
    · rw [if_neg h0]; exact minPos_pos z hpos
  · intro β V c x y
    unfold invLogSurface pow10
    exact le_of_lt (Real.rpow_pos_of_pos (by norm_num) _)

/-- Counterexample to claim C7 as stated: with every sampled intensity
non-positive, no replacement happens at all — the source takes the
minimum of an EMPTY positive selection (a numpy `ValueError`) and no
surface is returned. -/
theorem claim_C7_counterexample : logClampZ [-2, 0] = none := by
  norm_num [logClampZ]

/-- Witness for the amended claim C7 at a concrete node list with one
positive intensity. -/
theorem claim_C7_witness :
    ∃ z', logClampZ [-1, 4] = some z' ∧
      z' = [(-1 : ℚ), 4].map (fun v => if 0 < v then v else minPos [-1, 4]) ∧
      (∀ v' ∈ z', 0 < v') ∧
      ∀ (α : Type) (V : α → ℚ → ℚ → ℚ) (c : α) (x y : ℚ),
        0 ≤ invLogSurface V c x y :=
  claim_C7_log_clamp_positive_surface [-1, 4]
    ⟨4, by norm_num, by norm_num⟩

/-- A clipping round whose accepted count is unchanged makes the loop
return the current fit with the previous mask. -/
lemma fbLoop_stop {α : Type} (F : List FitPt → α) (V : α → ℚ → ℚ → ℚ)
    (pts : List FitPt) (u l : ℚ) (M m' : List Bool) (c : α) (fuel : ℕ)
    (hstep : clipStep F V pts u l M = some (c, m'))
    (hcount : countMask m' = countMask M) :
    fbLoop F V pts u l (fuel + 1) M = some (c, M) := by
  cases fuel with
  | zero => simp [fbLoop, hstep, hcount]
  | succ n =>
    show fbLoop F V pts u l (n + 2) M = some (c, M)
    rw [fbLoop, hstep]
    simp [hcount]

/-- A clipping round whose accepted count changed makes the loop continue
from the new mask with one unit of budget spent. -/
lemma fbLoop_continue {α : Type} (F : List FitPt → α) (V : α → ℚ → ℚ → ℚ)
    (pts : List FitPt) (u l : ℚ) (M m' : List Bool) (c : α) (fuel : ℕ)
    (hstep : clipStep F V pts u l M = some (c, m'))
    (hcount : countMask m' ≠ countMask M) :
    fbLoop F V pts u l (fuel + 2) M = fbLoop F V pts u l (fuel + 1) m' := by
  rw [fbLoop, hstep]
  dsimp only
  rw [if_neg hcount]

/-- Definedness of the mask sequence propagates downward to all earlier
indices. -/
lemma maskSeq_isSome_le {α : Type} (F : List FitPt → α) (V : α → ℚ → ℚ → ℚ)
    (pts : List FitPt) (u l : ℚ) (M0 : List Bool) (j : ℕ)
    (h : (maskSeq F V pts u l M0 j).isSome = true) :
    ∀ i, i ≤ j → (maskSeq F V pts u l M0 i).isSome = true := by
  induction j with
  | zero =>
    intro i hi
    interval_cases i
    exact h
  | succ j ih =>
    intro i hi
    rcases Nat.lt_or_ge i (j + 1) with h1 | h1
    · exact ih (maskSeq_isSome_down F V pts u l M0 j h) i (Nat.lt_succ_iff.mp h1)
    · have : i = j + 1 := le_antisymm hi h1
      rw [this]
      exact h

/-- Claim C3 (amended): `fit_background`'s loop performs fit-and-clip
rounds (least-squares over the currently accepted nodes, residuals for all
nodes, deviation over accepted nodes only, strict asymmetric clip) and
stops early exactly when the accepted COUNT is unchanged — the masks are
compared by `sum()`, not elementwise — returning the fit of the first
count-stable mask together with that (old) mask: if `k` is the first
count-stable index of the mask sequence and the budget exceeds `k`, the
loop output is the fit over the `k`-th mask, paired with the `k`-th mask
itself. -/
theorem claim_C3_stop_on_count_stable {α : Type} (F : List FitPt → α)
    (V : α → ℚ → ℚ → ℚ) (pts : List FitPt) (u l : ℚ) (M0 : List Bool)
    (k fuel : ℕ) (hk : k < fuel)
    (hmin : ∀ j, j < k → ¬ stableAt F V pts u l M0 j)
    (hstab : stableAt F V pts u l M0 k) :
    ∃ mk c m', maskSeq F V pts u l M0 k = some mk ∧
      clipStep F V pts u l mk = some (c, m') ∧
      countMask m' = countMask mk ∧
      fbLoop F V pts u l fuel M0 = some (c, mk) := by
  induction k generalizing M0 fuel with
  | zero =>
    obtain ⟨hsome, hcnt⟩ := hstab
    have h1 : maskSeq F V pts u l M0 1 = stepMask F V pts u l M0 := by
      simp [maskSeq]
    rw [h1] at hsome hcnt
    obtain ⟨m1, hm1⟩ := Option.isSome_iff_exists.mp hsome
    obtain ⟨⟨c, m2⟩, hcs2, heq⟩ := Option.map_eq_some'.mp hm1
    have hcs : clipStep F V pts u l M0 = some (c, m1) := by
      rw [← heq]
      exact hcs2
    have hcnt' : countMask m1 = countMask M0 := by
      rw [hm1] at hcnt
      simp [maskSeq] at hcnt
      exact hcnt
    obtain ⟨f, rfl⟩ := Nat.exists_eq_add_of_lt hk
    refine ⟨M0, c, m1, by simp [maskSeq], hcs, hcnt', ?_⟩
    have := fbLoop_stop F V pts u l M0 m1 c (0 + f) hcs hcnt'
    simpa using this
  | succ k ih =>
    have hs2 : (maskSeq F V pts u l M0 1).isSome = true :=
      maskSeq_isSome_le F V pts u l M0 (k + 2) hstab.1 1 (by omega)
    have h1 : maskSeq F V pts u l M0 1 = stepMask F V pts u l M0 := by
      simp [maskSeq]
    rw [h1] at hs2
    obtain ⟨m1, hm1⟩ := Option.isSome_iff_exists.mp hs2
    obtain ⟨⟨c0, m2⟩, hcs2, heq0⟩ := Option.map_eq_some'.mp hm1
    have hcs0 : clipStep F V pts u l M0 = some (c0, m1) := by
      rw [← heq0]
      exact hcs2
    have hne : countMask m1 ≠ countMask M0 := by
      intro hcc
      refine hmin 0 (Nat.succ_pos k) ⟨?_, ?_⟩
      · rw [h1, hm1]; rfl
      · rw [h1, hm1]
        simp [maskSeq, hcc]
    match fuel, hk with
    | n + 2, hk =>
      have hcont := fbLoop_continue F V pts u l M0 m1 c0 n hcs0 hne
      have hmin' : ∀ j, j < k → ¬ stableAt F V pts u l m1 j := by
        intro j hj
        rw [stableAt_shift F V pts u l M0 m1 hm1 j]
        exact hmin (j + 1) (Nat.succ_lt_succ hj)
      have hstab' : stableAt F V pts u l m1 k :=
        (stableAt_shift F V pts u l M0 m1 hm1 k).mpr hstab
      obtain ⟨mk, c, m', hseq, hcs, hcnt, hloop⟩ :=
        ih m1 (n + 1) (by omega) hmin' hstab'
      refine ⟨mk, c, m', ?_, hcs, hcnt, ?_⟩
      · rw [maskSeq_shift F V pts u l M0 m1 hm1 k]
        exact hseq
      · rw [hcont]
        exact hloop

/-- Counterexample to claim C3 as stated: on six nodes of intensities
2, 3, 11, 11, 12, 2 with 1-sigma clips, the second round maps the mask
`[F,T,T,T,F,F]` to the DIFFERENT mask `[F,F,T,T,T,F]` of the same count 3;
the source loop, comparing only `sum()`s, stops there and returns the old
mask — although the accepted set changed — while a loop that stops only on
an unchanged accepted set continues and ends up fitting zero points
(`none`).  The stated stop-exactly-when-set-unchanged rule is false of the
code. -/
theorem claim_C3_counterexample :
    fit_background meanF meanV 1 6 [0,0,0,0,0,0] [0,0,0,0,0,0]
        [2,3,11,11,12,2] 1 1 5
        = some (25/3, [false,true,true,true,false,false]) ∧
      clipStep meanF meanV [(0,0,2),(0,0,3),(0,0,11),(0,0,11),(0,0,12),(0,0,2)]
          1 1 [false,true,true,true,false,false]
        = some (25/3, [false,false,true,true,true,false]) ∧
      fit_background_spec meanF meanV 1 6 [0,0,0,0,0,0] [0,0,0,0,0,0]
        [2,3,11,11,12,2] 1 1 5 = none := by
  refine ⟨?_, ?_, ?_⟩
  · norm_num [fit_background, fbLoop, clipStep, selectMask, countMask, qvar,
      qmean, meanF, meanV, ltUpperSigma, gtLowerSigma, List.filterMap_cons]
  · norm_num [clipStep, selectMask, countMask, qvar, qmean, meanF, meanV,
      ltUpperSigma, gtLowerSigma, List.filterMap_cons]
  · norm_num [fit_background_spec, fbLoopSpec, clipStep, selectMask, countMask,
      qvar, qmean, meanF, meanV, ltUpperSigma, gtLowerSigma, List.filterMap_cons]

/-- Witness for the amended claim C3 at a concrete immediately-stable node
set: intensities 0, 10, 20 at 3-sigma keep all nodes, the count is stable
at index 0, and the loop returns the fit over (and together with) the
initial mask. -/
theorem claim_C3_witness :
    ∃ mk c m', maskSeq meanF meanV [(0,0,0),(0,0,10),(0,0,20)] 3 3
        [true,true,true] 0 = some mk ∧
      clipStep meanF meanV [(0,0,0),(0,0,10),(0,0,20)] 3 3 mk = some (c, m') ∧
      countMask m' = countMask mk ∧
      fbLoop meanF meanV [(0,0,0),(0,0,10),(0,0,20)] 3 3 5 [true,true,true]
        = some (c, mk) :=
  claim_C3_stop_on_count_stable meanF meanV [(0,0,0),(0,0,10),(0,0,20)] 3 3
    [true,true,true] 0 5 (by norm_num)
    (fun j hj => absurd hj (Nat.not_lt_zero j))
    (by constructor <;>
      norm_num [stableAt, maskSeq, stepMask, clipStep, selectMask, countMask,
        qvar, qmean, meanF, meanV, ltUpperSigma, gtLowerSigma,
        List.filterMap_cons])

/-- A completed walk yields the termination condition. -/
lemma upWalkF_some_terminates (c : List ℚ) (h : ℤ) :
    ∀ (fuel : ℕ) (ii y : ℤ) (r : List ℤ),
      upWalkF c h fuel ii y = some r → upWalkTerminates c h ii y := by
  intro fuel
  induction fuel with
  | zero =>
    intro ii y r hr
    rw [upWalkF] at hr
    by_cases hy : h - 1 ≤ y
    · exact Or.inl hy
    · rw [if_neg hy] at hr
      exact absurd hr (by simp)
  | succ n ih =>
    intro ii y r hr
    by_cases hy : h - 1 ≤ y
    · exact Or.inl hy
    · rw [upWalkF, if_neg hy] at hr
      obtain ⟨r', hr', _⟩ := Option.map_eq_some'.mp hr
      rcases ih (ii + 1) (pyint (polyval c ((ii + 1 : ℤ) : ℚ))) r' hr' with hy' | ⟨n', hn'⟩
      · refine Or.inr ⟨0, ?_⟩
        have : ii + 1 + ((0 : ℕ) : ℤ) = ii + 1 := by omega
        rw [this]
        exact hy'
      · refine Or.inr ⟨n' + 1, ?_⟩
        have : ii + 1 + ((n' + 1 : ℕ) : ℤ) = ii + 1 + 1 + (n' : ℤ) := by
          push_cast
          omega
        rw [this]
        exact hn'

/-- The termination condition funds a completing walk. -/
lemma upWalkTerminates_some (c : List ℚ) (h : ℤ) :
    ∀ (n : ℕ) (ii y : ℤ),
      h - 1 ≤ pyint (polyval c ((ii + 1 + (n : ℤ) : ℤ) : ℚ)) →
      ∃ fuel r, upWalkF c h fuel ii y = some r := by
  intro n
  induction n with
  | zero =>
    intro ii y hn
    by_cases hy : h - 1 ≤ y
    · exact ⟨0, [], by rw [upWalkF, if_pos hy]⟩
    · have harg : ii + 1 + ((0 : ℕ) : ℤ) = ii + 1 := by omega
      rw [harg] at hn
      refine ⟨2, [pyint (polyval c ((ii + 1 : ℤ) : ℚ))], ?_⟩
      rw [upWalkF, if_neg hy]
      have h2 : upWalkF c h 1 (ii + 1) (pyint (polyval c ((ii + 1 : ℤ) : ℚ)))
          = some [] := by
        rw [upWalkF, if_pos hn]
      dsimp only
      rw [h2]
      rfl
  | succ n ih =>
    intro ii y hn
    by_cases hy : h - 1 ≤ y
    · exact ⟨0, [], by rw [upWalkF, if_pos hy]⟩
    · have harg : ii + 1 + ((n + 1 : ℕ) : ℤ) = (ii + 1) + 1 + (n : ℤ) := by
        push_cast
        omega
      rw [harg] at hn
      obtain ⟨f, r, hf⟩ := ih (ii + 1) (pyint (polyval c ((ii + 1 : ℤ) : ℚ))) hn
      refine ⟨f + 1, pyint (polyval c ((ii + 1 : ℤ) : ℚ)) :: r, ?_⟩
      rw [upWalkF, if_neg hy]
      dsimp only
      rw [hf]
      rfl

/-- Claim C1 (amended): the sigma-clipping loop of `fit_background` is a
bounded `for` loop, but the per-column extension walk is a bare `while`
with no iteration bound: it completes (for some finite budget) exactly
when the fitted polynomial predicts a row at or beyond `h - 1` at some
later integer index — there is no unconditional termination guarantee
(see the counterexample for a fit that never exits the frame). -/
theorem claim_C1_walk_termination_iff (c : List ℚ) (h : ℤ) (ii y : ℤ) :
    (∃ fuel r, upWalkF c h fuel ii y = some r) ↔ upWalkTerminates c h ii y := by
  constructor
  · rintro ⟨fuel, r, hr⟩
    exact upWalkF_some_terminates c h fuel ii y r hr
  · rintro (hy | ⟨n, hn⟩)
    · exact ⟨0, [], by rw [upWalkF, if_pos hy]⟩
    · exact upWalkTerminates_some c h n ii y hn

/-- Counterexample to claim C1 as stated: the cubic least-squares fit of
the four column nodes 0, 9, 12, 9 is exactly `-3*i^2 + 12*i` (it
interpolates them, hence is THE least-squares degree-3 solution), and on a
frame of height 100 the upward extension walk starting from the last node
(index 3, row 9) never predicts a row at or beyond 99 — every later
prediction is non-positive — so the `while new_y < h-1` loop of
`correct_background` runs forever: `correct_background` does not terminate
on every input. -/
theorem claim_C1_counterexample :
    (polyval [0, -3, 12, 0] 0 = 0 ∧ polyval [0, -3, 12, 0] 1 = 9 ∧
      polyval [0, -3, 12, 0] 2 = 12 ∧ polyval [0, -3, 12, 0] 3 = 9) ∧
      ¬ upWalkTerminates [0, -3, 12, 0] 100 3 9 := by
  have hpoly : ∀ x : ℚ, polyval [0, -3, 12, 0] x = -3 * x ^ 2 + 12 * x := by
    intro x
    simp [polyval]
    ring
  constructor
  · refine ⟨?_, ?_, ?_, ?_⟩ <;> rw [hpoly] <;> norm_num
  · rintro (hy | ⟨n, hn⟩)
    · omega
    · have hval : polyval [0, -3, 12, 0] ((3 + 1 + (n : ℤ) : ℤ) : ℚ) ≤ 0 := by
        rw [hpoly]
        have hc : ((3 + 1 + (n : ℤ) : ℤ) : ℚ) = 4 + (n : ℚ) := by push_cast; ring
        rw [hc]
        have hn0 : (0 : ℚ) ≤ (n : ℚ) := Nat.cast_nonneg n
        nlinarith
      have := pyint_nonpos hval
      omega

/-- Claim C4 (amended): the backward-point removal keeps exactly the rows
that exceed their immediate predecessor in the pre-removal sequence
(sentinel 0), so when the extended and range-filtered column sequence is
already strictly increasing the removal keeps it whole and the output is
strictly increasing; in general the output need NOT be strictly
increasing (see the counterexample). -/
theorem claim_C4_monotone_when_prefiltered_monotone (c : List ℚ) (h : ℤ)
    (fuel : ℕ) (ext : Bool) (l e : List ℤ)
    (he : extendColOpt c h fuel ext l = some e)
    (hchain : List.Chain' (fun a b => a < b) (rangeFilter h e)) :
    ∃ out, postColumn c h fuel ext l = some out ∧ out = rangeFilter h e ∧
      List.Chain' (fun a b => a < b) out := by
  have hrb : removeBackward (rangeFilter h e) = rangeFilter h e := by
    unfold removeBackward
    apply rbAux_eq_self
    cases hf : rangeFilter h e with
    | nil => exact List.Chain.nil
    | cons a t =>
      rw [List.chain_cons]
      constructor
      · exact rangeFilter_pos h e a (by rw [hf]; exact List.mem_cons_self a t)
      · have : List.Chain' (fun a b => a < b) (a :: t) := by rw [← hf]; exact hchain
        exact this
  refine ⟨rangeFilter h e, ?_, rfl, hchain⟩
  unfold postColumn
  rw [he]
  simp [hrb]

/-- Counterexample to claim C4 as stated: the cubic that `np.polyfit`
returns for the raw column rows 2, 1, 3, 9 is exactly
`x^3/6 + x^2 - 13*x/6 + 2` (it interpolates all four points, hence is THE
degree-3 least-squares solution); extending with it on a frame of height
20, filtering to `(0, 19)` and removing backward points leaves the
per-column node rows `[9, 15, 17, 3, 9]` — NOT strictly increasing: the
one-pass `np.diff > 0` filter compares each row only to its original
neighbour, and monotonicity is destroyed where the extension walk turns
around. -/
theorem claim_C4_counterexample :
    (polyval [1/6, 1, -13/6, 2] 0 = 2 ∧ polyval [1/6, 1, -13/6, 2] 1 = 1 ∧
      polyval [1/6, 1, -13/6, 2] 2 = 3 ∧ polyval [1/6, 1, -13/6, 2] 3 = 9) ∧
      postColumn [1/6, 1, -13/6, 2] 20 9 true [2,1,3,9] = some [9,15,17,3,9] ∧
      ¬ List.Chain' (fun a b => a < b) ([9,15,17,3,9] : List ℤ) := by
  refine ⟨by norm_num [polyval], ?_, by norm_num [List.chain'_cons]⟩
  norm_num [postColumn, extendColOpt, upWalkF, downWalkF, pyint, polyval,
    rangeFilter, removeBackward, rbAux, List.getLast, Int.ceil_neg]

/-- Witness for the amended claim C4: with extension disabled the column
rows 3, 7 survive the range filter on a frame of height 10 unchanged and
already increasing, and the post-processing returns them whole, still
strictly increasing. -/
theorem claim_C4_witness :
    ∃ out, postColumn [] 10 0 false [3, 7] = some out ∧
      out = rangeFilter 10 [3, 7] ∧
      List.Chain' (fun a b => a < b) out :=
  claim_C4_monotone_when_prefiltered_monotone [] 10 0 false [3, 7] [3, 7]
    rfl (by norm_num [rangeFilter, List.chain'_cons])

/-- Indexing into a `drop`-then-`take` slice reads the underlying list at
the offset index. -/
lemma getD_drop_take (sec : List ℚ) (a b m : ℕ)
    (hm : m < ((sec.drop a).take b).length) :
    ((sec.drop a).take b).getD m 0 = sec.getD (a + m) 0 := by
  have h1 : m < (sec.drop a).length := by
    rw [List.length_take] at hm
    exact lt_of_lt_of_le hm inf_le_right
  have h2 : a + m < sec.length := by
    rw [List.length_drop] at h1
    omega
  rw [List.getD_eq_getElem _ _ hm, List.getD_eq_getElem _ _ h2,
    List.getElem_take (sec.drop a), List.getElem_drop sec]

/-- Claim C8: at a scan column, for a pair of consecutively-encountered
order centers `p` (previous) and `c` (current) that lie inside the frame
in order, the sampler skips the midpoint whenever it is within
`0.6 * scan_step` of the previously accepted node, and otherwise it
records the row of MINIMUM intensity over the window between the two
clamped centers — a window that contains the geometric midpoint row — not
the midpoint row itself. -/
theorem claim_C8_candidate_minimum_and_skip (hgt : ℤ) (step : ℚ)
    (sec : List ℚ) (p c : ℚ) (acc : List ℤ) (i1 i2 mid : ℤ)
    (hi1 : i1 = min (hgt - 1) (max 0 (pyint p)))
    (hi2 : i2 = min (hgt - 1) (max 0 (pyint c)))
    (hmid : mid = pyint ((p + c) / 2))
    (hlen : (sec.length : ℤ) = hgt)
    (hp0 : 0 ≤ p) (hpc : p ≤ c) (hch : c ≤ (hgt : ℚ) - 1) :
    (acc ≠ [] → |(mid : ℚ) - ((acc.getLastD 0 : ℤ) : ℚ)| ≤ step * (3 / 5) →
      tryAppend hgt step sec p c acc = acc) ∧
    ((acc = [] ∨ step * (3 / 5) < |(mid : ℚ) - ((acc.getLastD 0 : ℤ) : ℚ)|) →
      i1 < i2 →
      ∃ r, tryAppend hgt step sec p c acc = acc ++ [r] ∧
        i1 ≤ r ∧ r < i2 ∧ i1 ≤ mid ∧ mid ≤ i2 ∧
        ∀ j : ℤ, i1 ≤ j → j < i2 →
          sec.getD r.toNat 0 ≤ sec.getD j.toNat 0) := by
  subst hi1 hi2 hmid
  have hc0 : 0 ≤ c := le_trans hp0 hpc
  have hhgt1 : (0 : ℤ) ≤ hgt - 1 := by
    have : (0 : ℚ) ≤ (hgt : ℚ) - 1 := le_trans hp0 (le_trans hpc hch)
    exact_mod_cast this
  constructor
  · intro hne hle
    unfold tryAppend
    dsimp only
    rw [if_neg]
    push_neg
    exact ⟨hne, hle⟩
  · intro hcond hlt
    unfold tryAppend
    dsimp only
    rw [if_pos hcond, if_pos (by omega : (0 : ℤ) <
      min (hgt - 1) (max 0 (pyint c)) - min (hgt - 1) (max 0 (pyint p)))]
    set i1 := min (hgt - 1) (max 0 (pyint p)) with hi1def
    set i2 := min (hgt - 1) (max 0 (pyint c)) with hi2def
    set slice := (sec.drop i1.toNat).take (i2 - i1).toNat with hslice
    set k := argminIdx slice with hk
    have hi1nn : 0 ≤ i1 := le_min hhgt1 (le_max_left 0 _)
    have hi2le : i2 ≤ hgt - 1 := min_le_left _ _
    have hlenslice : slice.length = (i2 - i1).toNat := by
      rw [hslice, List.length_take, List.length_drop]
      omega
    have hslne : slice ≠ [] := by
      intro h0
      rw [h0] at hlenslice
      simp at hlenslice
      omega
    have hkb : k < (i2 - i1).toNat := by
      rw [← hlenslice]
      exact argminIdx_lt_length slice hslne
    have hkb' : k < slice.length := by
      rw [hlenslice]
      exact hkb
    -- the midpoint row lies inside the window
    have hpyp : pyint p = ⌊p⌋ := pyint_of_nonneg hp0
    have hpyc : pyint c = ⌊c⌋ := pyint_of_nonneg hc0
    have hpym : pyint ((p + c) / 2) = ⌊(p + c) / 2⌋ :=
      pyint_of_nonneg (by linarith)
    have hfp0 : 0 ≤ ⌊p⌋ := Int.floor_nonneg.mpr hp0
    have hfc0 : 0 ≤ ⌊c⌋ := Int.floor_nonneg.mpr hc0
    have hfple : ⌊p⌋ ≤ hgt - 1 := by
      have h1 : ⌊p⌋ ≤ ⌊(hgt : ℚ) - 1⌋ := Int.floor_le_floor (le_trans hpc hch)
      have h2 : ⌊(hgt : ℚ) - 1⌋ = hgt - 1 := by
        rw [show (hgt : ℚ) - 1 = ((hgt - 1 : ℤ) : ℚ) by push_cast; ring,
          Int.floor_intCast]
      omega
    have hfcle : ⌊c⌋ ≤ hgt - 1 := by
      have h1 : ⌊c⌋ ≤ ⌊(hgt : ℚ) - 1⌋ := Int.floor_le_floor hch
      have h2 : ⌊(hgt : ℚ) - 1⌋ = hgt - 1 := by
        rw [show (hgt : ℚ) - 1 = ((hgt - 1 : ℤ) : ℚ) by push_cast; ring,
          Int.floor_intCast]
      omega
    have hi1eq : i1 = ⌊p⌋ := by
      rw [hi1def, hpyp, max_eq_right hfp0, min_eq_right hfple]
    have hi2eq : i2 = ⌊c⌋ := by
      rw [hi2def, hpyc, max_eq_right hfc0, min_eq_right hfcle]
    have hmid1 : i1 ≤ pyint ((p + c) / 2) := by
      rw [hi1eq, hpym]
      exact Int.floor_le_floor (by linarith)
    have hmid2 : pyint ((p + c) / 2) ≤ i2 := by
      rw [hi2eq, hpym]
      exact Int.floor_le_floor (by linarith)
    refine ⟨i1 + (k : ℤ), rfl, by omega, by omega, hmid1, hmid2, ?_⟩
    intro j hj1 hj2
    have hd : (j - i1).toNat < slice.length := by
      rw [hlenslice]
      omega
    have hmin := argminIdx_le slice ((j - i1).toNat) hd
    rw [hslice] at hmin
    rw [getD_drop_take sec i1.toNat ((i2 - i1).toNat) k (by
        rw [← hslice]; exact hkb'),
      getD_drop_take sec i1.toNat ((i2 - i1).toNat) ((j - i1).toNat) (by
        rw [← hslice]; exact hd)] at hmin
    have he1 : (i1 + (k : ℤ)).toNat = i1.toNat + k := by omega
    have he2 : j.toNat = i1.toNat + (j - i1).toNat := by omega
    rw [he1, he2]
    exact hmin

/-- Witness for claim C8 at a concrete column: centers 1 and 4 on a
6-pixel column of intensities `[5, 4, 1, 2, 3, 9]` give window `[1, 4)`,
containing the midpoint row 2, and the recorded candidate minimizes the
intensity over that window. -/
theorem claim_C8_witness :
    ∃ r, tryAppend 6 1 [5, 4, 1, 2, 3, 9] 1 4 [] = [] ++ [r] ∧
      (1 : ℤ) ≤ r ∧ r < 4 ∧ (1 : ℤ) ≤ 2 ∧ (2 : ℤ) ≤ 4 ∧
      ∀ j : ℤ, 1 ≤ j → j < 4 →
        List.getD ([5, 4, 1, 2, 3, 9] : List ℚ) r.toNat 0 ≤
          List.getD ([5, 4, 1, 2, 3, 9] : List ℚ) j.toNat 0 :=
  (claim_C8_candidate_minimum_and_skip 6 1 [5, 4, 1, 2, 3, 9] 1 4 [] 1 4 2
    (by norm_num [pyint]) (by norm_num [pyint]) (by norm_num [pyint])
    (by norm_num) (by norm_num) (by norm_num) (by norm_num)).2
    (Or.inl rfl) (by norm_num)
